import Mathlib

/-!
Verification of the response-formatting and conversation-state pipeline of
the `bio_google_tg` Telegram bot (files `telegram_bot.py`, `api_client.py`).

Strings are modelled as `List Char` (Python `str` length, slicing and
iteration are over characters).  Each Python function is embedded as an
executable Lean definition that mirrors its source line by line; the
regular expressions used by the bot are fixed patterns, embedded as
dedicated scanners with exactly the Python `re` semantics (leftmost match,
alternation priority, lazy/greedy quantifiers) for those patterns.
-/

set_option linter.unusedVariables false

namespace BioTg

/-- Python strings, modelled as lists of characters. -/
abbrev Str := List Char

/-- The newline character. -/
def nl : Char := '\n'

/-- The backtick character (U+0060), written via its code point. -/
def tick : Char := Char.ofNat 96

/-- The apostrophe character (U+0027), written via its code point. -/
def apos : Char := Char.ofNat 39

/-- Characters accepted by Python `str.strip()` and by the regex class
backslash-s (ASCII range): space, tab, newline, carriage return,
vertical tab, form feed. -/
def isPySpace (c : Char) : Bool :=
  c = ' ' || c = '\t' || c = '\n' || c = '\r' || c = Char.ofNat 11 || c = Char.ofNat 12

/-- Python `str.strip()`: drop leading and trailing whitespace. -/
def pyStrip (s : Str) : Str :=
  ((s.dropWhile isPySpace).reverse.dropWhile isPySpace).reverse

/-- Python `"\n".join(lines)` over a list of lines. -/
def joinNl : List Str → Str
  | [] => []
  | [l] => l
  | l :: ls => l ++ nl :: joinNl ls

/-- Python `text.split("\n")`: split at every newline; always returns at
least one (possibly empty) line. -/
def splitNl : Str → List Str
  | [] => [[]]
  | c :: cs =>
    if c = nl then [] :: splitNl cs
    else
      match splitNl cs with
      | [] => [[c]]
      | l :: ls => (c :: l) :: ls

theorem splitNl_ne_nil (s : Str) : splitNl s ≠ [] := by
  cases s with
  | nil => simp [splitNl]
  | cons c cs =>
    simp only [splitNl]
    split
    · simp
    · split <;> simp

theorem joinNl_splitNl (s : Str) : joinNl (splitNl s) = s := by
  induction s with
  | nil => rfl
  | cons c cs ih =>
    simp only [splitNl]
    split
    · rename_i h
      rw [show ([] :: splitNl cs : List Str) = [] :: splitNl cs from rfl]
      have hne := splitNl_ne_nil cs
      cases hsp : splitNl cs with
      | nil => exact absurd hsp hne
      | cons l ls =>
        rw [hsp] at ih
        simp only [joinNl, h]
        simpa using ih
    · have hne := splitNl_ne_nil cs
      cases hsp : splitNl cs with
      | nil => exact absurd hsp hne
      | cons l ls =>
        rw [hsp] at ih
        cases ls with
        | nil => simp only [joinNl] at ih ⊢; rw [ih]
        | cons l' ls' => simp only [joinNl] at ih ⊢; rw [List.cons_append, ih]

theorem mem_splitNl_no_nl (s : Str) : ∀ l ∈ splitNl s, nl ∉ l := by
  induction s with
  | nil => intro l hl; simp [splitNl] at hl; simp [hl]
  | cons c cs ih =>
    intro l hl
    simp only [splitNl] at hl
    split at hl
    · rcases List.mem_cons.mp hl with h | h
      · simp [h]
      · exact ih l h
    · rename_i hc
      cases hsp : splitNl cs with
      | nil => exact absurd hsp (splitNl_ne_nil cs)
      | cons l0 ls =>
        rw [hsp] at hl
        rcases List.mem_cons.mp hl with h | h
        · subst h
          intro hmem
          rcases List.mem_cons.mp hmem with h' | h'
          · exact hc h'.symm
          · exact ih l0 (by rw [hsp]; exact List.mem_cons_self _ _) h'
        · exact ih l (by rw [hsp]; exact List.mem_cons.mpr (Or.inr h))

/-- If a string contains no newline it is its own single line. -/
theorem splitNl_no_nl (s : Str) (h : nl ∉ s) : splitNl s = [s] := by
  induction s with
  | nil => rfl
  | cons c cs ih =>
    simp only [splitNl]
    have hc : ¬ c = nl := fun hc => h (by simp [hc])
    rw [if_neg hc, ih (fun hm => h (List.mem_cons.mpr (Or.inr hm)))]

/-! ### `_split_message` (telegram_bot.py lines 26-48) -/

/-- The loop of `_split_message`: `lines` are the remaining lines,
`parts` the finished chunks, `current` the lines of the open chunk and
`clen` the running `current_len` counter, exactly as in the Python body. -/
def splitLoop (limit : Nat) : List Str → List Str → List Str → Nat → List Str
  | [], parts, current, _ =>
    if current ≠ [] then parts ++ [joinNl current] else parts
  | line :: rest, parts, current, clen =>
    let addLen := line.length + (if current = [] then 0 else 1)
    if clen + addLen > limit then
      splitLoop limit rest (parts ++ [joinNl current]) [line] line.length
    else
      if current = [] then
        splitLoop limit rest parts [line] line.length
      else
        splitLoop limit rest parts (current ++ [line]) (clen + addLen)

/-- `_split_message(text, limit)`: return the whole text if it fits,
otherwise greedily pack newline-separated lines into chunks. -/
def splitMessage (text : Str) (limit : Nat) : List Str :=
  if text.length ≤ limit then [text]
  else splitLoop limit (splitNl text) [] [] 0

theorem splitLoop_nil_eq (limit : Nat) (parts current : List Str) (clen : Nat) :
    splitLoop limit [] parts current clen =
      if current ≠ [] then parts ++ [joinNl current] else parts := rfl

theorem splitLoop_cons_eq (limit : Nat) (line : Str) (rest : List Str)
    (parts current : List Str) (clen : Nat) :
    splitLoop limit (line :: rest) parts current clen =
      if clen + (line.length + (if current = [] then 0 else 1)) > limit then
        splitLoop limit rest (parts ++ [joinNl current]) [line] line.length
      else
        if current = [] then
          splitLoop limit rest parts [line] line.length
        else
          splitLoop limit rest parts (current ++ [line])
            (clen + (line.length + (if current = [] then 0 else 1))) := rfl

/-- The `parts` accumulator only ever grows at the front. -/
theorem splitLoop_acc (limit : Nat) (lines : List Str) (parts current : List Str)
    (clen : Nat) :
    splitLoop limit lines parts current clen =
      parts ++ splitLoop limit lines [] current clen := by
  induction lines generalizing parts current clen with
  | nil =>
    rw [splitLoop_nil_eq, splitLoop_nil_eq]
    split <;> simp
  | cons line rest ih =>
    rw [splitLoop_cons_eq, splitLoop_cons_eq]
    by_cases hcur : current = [] <;>
      [simp only [if_pos hcur]; simp only [if_neg hcur]] <;>
      split
    · rw [ih (parts ++ [joinNl current]), ih ([] ++ [joinNl current]), List.nil_append,
        List.append_assoc]
    · rw [ih parts]
    · rw [ih (parts ++ [joinNl current]), ih ([] ++ [joinNl current]), List.nil_append,
        List.append_assoc]
    · rw [ih parts]

theorem splitLoop_ne_nil (limit : Nat) (lines : List Str) (current : List Str)
    (clen : Nat) (h : current ≠ []) :
    splitLoop limit lines [] current clen ≠ [] := by
  induction lines generalizing current clen with
  | nil => rw [splitLoop_nil_eq, if_pos h]; simp
  | cons line rest ih =>
    rw [splitLoop_cons_eq]
    simp only [if_neg h]
    split
    · rw [splitLoop_acc]
      simp
    · exact ih (current ++ [line]) _ (by simp)

theorem joinNl_cons_of_ne (l : Str) (ls : List Str) (h : ls ≠ []) :
    joinNl (l :: ls) = l ++ nl :: joinNl ls := by
  cases ls with
  | nil => exact absurd rfl h
  | cons l' ls' => rfl

theorem joinNl_append (a b : List Str) (ha : a ≠ []) (hb : b ≠ []) :
    joinNl (a ++ b) = joinNl a ++ nl :: joinNl b := by
  induction a with
  | nil => exact absurd rfl ha
  | cons x xs ih =>
    cases xs with
    | nil =>
      rw [List.singleton_append, joinNl_cons_of_ne x b hb]
      rfl
    | cons x' xs' =>
      rw [List.cons_append, joinNl_cons_of_ne x ((x' :: xs') ++ b) (by simp),
        joinNl_cons_of_ne x (x' :: xs') (by simp), ih (by simp)]
      simp

/-- Reconstruction: joining the chunks produced by the loop (with a
non-empty open chunk) with newlines restores the pending text. -/
theorem splitLoop_join (limit : Nat) (lines : List Str) (current : List Str)
    (clen : Nat) (h : current ≠ []) :
    joinNl (splitLoop limit lines [] current clen) = joinNl (current ++ lines) := by
  induction lines generalizing current clen with
  | nil =>
    rw [splitLoop_nil_eq, if_pos h]
    simp [joinNl]
  | cons line rest ih =>
    rw [splitLoop_cons_eq]
    simp only [if_neg h]
    split
    · rw [splitLoop_acc, List.nil_append,
        joinNl_append [joinNl current] _ (by simp)
          (splitLoop_ne_nil limit rest [line] line.length (by simp)),
        ih [line] line.length (by simp),
        joinNl_append current (line :: rest) h (by simp)]
      simp [joinNl]
    · rw [ih (current ++ [line]) _ (by simp)]
      simp

/-- Length bound: if every pending line, every finished chunk and the open
chunk are within the limit, so is every chunk of the result.  `clen` must
be the length of the joined open chunk, as the Python counter invariantly
is. -/
theorem splitLoop_len (limit : Nat) (lines : List Str) (parts current : List Str)
    (clen : Nat)
    (hclen : (joinNl current).length = clen)
    (hclim : clen ≤ limit)
    (hparts : ∀ p ∈ parts, p.length ≤ limit)
    (hlines : ∀ l ∈ lines, l.length ≤ limit) :
    ∀ p ∈ splitLoop limit lines parts current clen, p.length ≤ limit := by
  induction lines generalizing parts current clen with
  | nil =>
    intro p hp
    rw [splitLoop_nil_eq] at hp
    split at hp
    · rcases List.mem_append.mp hp with h | h
      · exact hparts p h
      · simp at h
        rw [h, hclen]
        exact hclim
    · exact hparts p hp
  | cons line rest ih =>
    intro p hp
    rw [splitLoop_cons_eq] at hp
    have hline : line.length ≤ limit := hlines line (List.mem_cons_self _ _)
    have hrest : ∀ l ∈ rest, l.length ≤ limit :=
      fun l hl => hlines l (List.mem_cons.mpr (Or.inr hl))
    have hjoin1 : (joinNl [line]).length = line.length := rfl
    have hpartsClosed : ∀ q ∈ parts ++ [joinNl current], q.length ≤ limit := by
      intro q hq
      rcases List.mem_append.mp hq with h | h
      · exact hparts q h
      · simp at h
        rw [h, hclen]
        exact hclim
    by_cases hcur : current = []
    · simp only [if_pos hcur] at hp
      split at hp
      · exact ih (parts ++ [joinNl current]) [line] line.length hjoin1 hline
          hpartsClosed hrest p hp
      · exact ih parts [line] line.length hjoin1 hline hparts hrest p hp
    · simp only [if_neg hcur] at hp
      split at hp
      · exact ih (parts ++ [joinNl current]) [line] line.length hjoin1 hline
          hpartsClosed hrest p hp
      · rename_i hfit
        push_neg at hfit
        refine ih parts (current ++ [line]) _ ?_ ?_ hparts hrest p hp
        · rw [joinNl_append current [line] hcur (by simp)]
          simp [joinNl, hclen]
        · exact hfit

theorem addLen_nil_current (line : Str) :
    line.length + (if ([] : Str) = [] then 0 else 1) = line.length := by
  simp

/-- First step of the loop as `_split_message` calls it, when the first
line fits the limit. -/
theorem splitLoop_first_fits (limit : Nat) (line : Str) (rest : List Str)
    (h : line.length ≤ limit) :
    splitLoop limit (line :: rest) [] [] 0 =
      splitLoop limit rest [] [line] line.length := by
  rw [splitLoop_cons_eq, if_neg (by simp; omega), if_pos rfl]

/-- First step of the loop as `_split_message` calls it, when the first
line overflows the limit: an empty chunk is closed off first. -/
theorem splitLoop_first_overflows (limit : Nat) (line : Str) (rest : List Str)
    (h : limit < line.length) :
    splitLoop limit (line :: rest) [] [] 0 =
      [] :: splitLoop limit rest [] [line] line.length := by
  rw [splitLoop_cons_eq, if_pos (by simp; omega), splitLoop_acc]
  rfl

end BioTg

namespace BioTg

/-! ### Claim theorems about `_split_message` -/

/-- Concrete six-character text with no newline, limit 3. -/
def exC2 : Str := ("aaaaaa").data

/-- C2 counterexample: a 6-character newline-free text with limit 3 is
not returned as a single oversized segment; `_split_message` first closes
an empty chunk, so the result is `["", "aaaaaa"]`, not `["aaaaaa"]`. -/
theorem c2_single_segment_counterexample :
    splitMessage exC2 3 ≠ [exC2] ∧ splitMessage exC2 3 = [[], exC2] := by
  constructor <;> decide

/-- C2 (amended): for every newline-free text longer than the limit,
`_split_message` never splits inside the line, but returns the whole text
as one oversized segment preceded by one empty segment. -/
theorem c2_oversized_line_amended (text : Str) (limit : Nat)
    (h1 : nl ∉ text) (h2 : limit < text.length) :
    splitMessage text limit = [[], text] := by
  unfold splitMessage
  rw [if_neg (by omega), splitNl_no_nl text h1, splitLoop_first_overflows limit text [] h2,
    splitLoop_nil_eq, if_pos (by simp)]
  rfl

/-- The 5000-character newline-free scenario text. -/
def exC2long : Str := List.replicate 5000 'a'

/-- C2 witness: the spec scenario (5000 characters, limit 3900) hits the
amended behaviour: one empty segment, then the unsplit text. -/
theorem c2_oversized_line_amended_witness :
    splitMessage exC2long 3900 = [[], exC2long] :=
  c2_oversized_line_amended exC2long 3900
    (by
      show nl ∉ List.replicate 5000 'a'
      intro hm
      rw [List.mem_replicate] at hm
      exact absurd hm.2 (by decide))
    (by
      show 3900 < (List.replicate 5000 'a').length
      rw [List.length_replicate]
      norm_num)

/-- C3: whenever no newline-separated line of the text exceeds the limit,
joining the chunks of `_split_message` with a newline reconstructs the
input exactly, and every chunk is within the limit. -/
theorem c3_chunker_reconstruction (text : Str) (limit : Nat)
    (h : ∀ l ∈ splitNl text, l.length ≤ limit) :
    joinNl (splitMessage text limit) = text ∧
      ∀ p ∈ splitMessage text limit, p.length ≤ limit := by
  unfold splitMessage
  split
  · rename_i hfits
    refine ⟨rfl, ?_⟩
    intro p hp
    simp at hp
    rw [hp]
    exact hfits
  · cases hsp : splitNl text with
    | nil => exact absurd hsp (splitNl_ne_nil text)
    | cons line rest =>
      have hline : line.length ≤ limit := h line (by rw [hsp]; exact List.mem_cons_self _ _)
      have hrest : ∀ l ∈ rest, l.length ≤ limit :=
        fun l hl => h l (by rw [hsp]; exact List.mem_cons.mpr (Or.inr hl))
      rw [splitLoop_first_fits limit line rest hline]
      constructor
      · rw [splitLoop_join limit rest [line] line.length (by simp),
          List.singleton_append, ← hsp, joinNl_splitNl]
      · exact splitLoop_len limit rest [] [line] line.length rfl hline (by simp) hrest

/-- Concrete text for the C3 witness. -/
def exC3 : Str := ("ab\ncd\nef").data

/-- C3 witness at a concrete input: three short lines with limit 5. -/
theorem c3_chunker_reconstruction_witness :
    joinNl (splitMessage exC3 5) = exC3 ∧
      ∀ p ∈ splitMessage exC3 5, p.length ≤ 5 :=
  c3_chunker_reconstruction exC3 5 (by decide)

/-- C9: when the text is longer than the limit and its first line already
exceeds the limit, the first chunk `_split_message` returns is the empty
string (the loop closes the initially empty chunk before the long line). -/
theorem c9_leading_empty_segment (text : Str) (limit : Nat) (line : Str)
    (rest : List Str)
    (h1 : limit < text.length) (h2 : splitNl text = line :: rest)
    (h3 : limit < line.length) :
    (splitMessage text limit).head? = some [] := by
  unfold splitMessage
  rw [if_neg (by omega), h2, splitLoop_first_overflows limit line rest h3]
  rfl

/-- Concrete text for the C9 witness. -/
def exC9 : Str := ("aaaa\nb").data

end BioTg

namespace BioTg

/-! ### `_normalize_markdown_for_telegram` (telegram_bot.py lines 75-101)

The function uses three fixed `re` patterns.  Each is embedded as a
scanner with Python `re` semantics for that pattern: leftmost match,
alternation priority, lazy (`+?`, `*?`) and greedy (`+`, `*`)
quantifiers, `.` not matching a newline (no DOTALL on the emphasis
patterns) and DOTALL on the code-snippet pattern.  The recursive
rewriters carry a fuel argument (always called with more fuel than the
string length, which step lemmas below show is enough) so that they are
structurally recursive and computable by `decide`. -/

/-- Split at the first backtick: `s = pre ++ tick :: rest` with no
backtick in `pre`. -/
def splitAtTick : Str → Option (Str × Str)
  | [] => none
  | c :: cs =>
    if c = tick then some ([], cs)
    else (splitAtTick cs).map (fun p => (c :: p.1, p.2))

/-- Split at the first occurrence of three consecutive backticks
(the lazy search for the closing fence of a DOTALL triple-backtick
block). -/
def splitAtTriple : Str → Option (Str × Str)
  | c1 :: c2 :: c3 :: rest =>
    if c1 = tick ∧ c2 = tick ∧ c3 = tick then some ([], rest)
    else (splitAtTriple (c2 :: c3 :: rest)).map (fun p => (c1 :: p.1, p.2))
  | _ => none

/-- One step of `_CODE_SNIPPET_RE.finditer`: the leftmost match of
triple-backtick-block-or-inline-span, returned as
(text before the match, the match itself, text after the match). -/
def findCodeMatch (s : Str) : Option (Str × Str × Str) :=
  match splitAtTick s with
  | none => none
  | some (pre, afterTick) =>
    match afterTick with
    | b1 :: b2 :: rest3 =>
      if b1 = tick ∧ b2 = tick then
        match splitAtTriple rest3 with
        | some (inner, rest) =>
          some (pre, tick :: tick :: tick :: (inner ++ [tick, tick, tick]), rest)
        | none => some (pre, [tick, tick], b2 :: rest3)
      else
        match splitAtTick afterTick with
        | some (inner, rest) => some (pre, tick :: (inner ++ [tick]), rest)
        | none => none
    | _ =>
      match splitAtTick afterTick with
      | some (inner, rest) => some (pre, tick :: (inner ++ [tick]), rest)
      | none => none

theorem splitAtTick_eq (s : Str) :
    ∀ pre rest, splitAtTick s = some (pre, rest) → s = pre ++ tick :: rest := by
  induction s with
  | nil => intro pre rest h; simp [splitAtTick] at h
  | cons c cs ih =>
    intro pre rest h
    simp only [splitAtTick] at h
    split at h
    · rename_i hc
      simp at h
      simp [← h.1, ← h.2, hc]
    · cases hsp : splitAtTick cs with
      | none => rw [hsp] at h; simp at h
      | some p =>
        rw [hsp] at h
        simp at h
        obtain ⟨h1, h2⟩ := h
        rw [← h1, ← h2, ih p.1 p.2 (by rw [hsp])]
        simp

theorem splitAtTriple_eq :
    ∀ (s : Str), ∀ pre rest, splitAtTriple s = some (pre, rest) →
      s = pre ++ tick :: tick :: tick :: rest
  | c1 :: c2 :: c3 :: r, pre, rest, h => by
    rw [splitAtTriple] at h
    split at h
    · rename_i h3
      simp at h
      simp [← h.1, ← h.2, h3.1, h3.2.1, h3.2.2]
    · cases hsp : splitAtTriple (c2 :: c3 :: r) with
      | none => rw [hsp] at h; simp at h
      | some p =>
        rw [hsp] at h
        simp at h
        have hrec := splitAtTriple_eq (c2 :: c3 :: r) p.1 p.2 (by rw [hsp])
        rw [← h.1, ← h.2, hrec]
        simp
  | [], _, _, h => by simp [splitAtTriple] at h
  | [c], _, _, h => by simp [splitAtTriple] at h
  | [c1, c2], _, _, h => by simp [splitAtTriple] at h

theorem findCodeMatch_eq (s pre m rest : Str)
    (h : findCodeMatch s = some (pre, m, rest)) :
    s = pre ++ m ++ rest ∧ m ≠ [] := by
  unfold findCodeMatch at h
  cases h1 : splitAtTick s with
  | none => rw [h1] at h; simp at h
  | some p1 =>
    rw [h1] at h
    obtain ⟨pre1, afterTick⟩ := p1
    have hs : s = pre1 ++ tick :: afterTick := splitAtTick_eq s pre1 afterTick h1
    simp only at h
    cases afterTick with
    | nil =>
      simp only [splitAtTick] at h
      simp at h
    | cons b1 bs =>
      cases bs with
      | nil =>
        simp only at h
        cases h2 : splitAtTick [b1] with
        | none => rw [h2] at h; simp at h
        | some p2 =>
          rw [h2] at h
          simp at h
          obtain ⟨hpre, hm, hrest⟩ := h
          have := splitAtTick_eq [b1] p2.1 p2.2 h2
          constructor
          · rw [hs, this, ← hpre, ← hm, ← hrest]
            simp
          · rw [← hm]; simp
      | cons b2 rest3 =>
        simp only at h
        split at h
        · rename_i h23
          cases h2 : splitAtTriple rest3 with
          | none =>
            rw [h2] at h
            simp at h
            obtain ⟨hpre, hm, hrest⟩ := h
            constructor
            · rw [hs, ← hpre, ← hm, ← hrest, h23.1, h23.2]
              simp
            · rw [← hm]; simp
          | some p2 =>
            rw [h2] at h
            simp at h
            obtain ⟨hpre, hm, hrest⟩ := h
            have := splitAtTriple_eq rest3 p2.1 p2.2 h2
            constructor
            · rw [hs, this, ← hpre, ← hm, ← hrest, h23.1, h23.2]
              simp
            · rw [← hm]; simp
        · cases h2 : splitAtTick (b1 :: b2 :: rest3) with
          | none => rw [h2] at h; simp at h
          | some p2 =>
            rw [h2] at h
            simp at h
            obtain ⟨hpre, hm, hrest⟩ := h
            have := splitAtTick_eq (b1 :: b2 :: rest3) p2.1 p2.2 h2
            constructor
            · rw [hs, this, ← hpre, ← hm, ← hrest]
              simp
            · rw [← hm]; simp

theorem findCodeMatch_len (s pre m rest : Str)
    (h : findCodeMatch s = some (pre, m, rest)) : rest.length < s.length := by
  obtain ⟨heq, hne⟩ := findCodeMatch_eq s pre m rest h
  rw [heq]
  simp
  cases m with
  | nil => exact absurd rfl hne
  | cons a as => simp; omega

/-- C9 witness: text `"aaaa\nb"` with limit 3: total length 6 > 3, first
line length 4 > 3, and the first returned chunk is empty. -/
theorem c9_leading_empty_segment_witness :
    (splitMessage exC9 3).head? = some [] :=
  c9_leading_empty_segment exC9 3 (("aaaa").data) ([("b").data])
    (by decide) (by decide) (by decide)

/-- One attempt of the multiline pattern
whitespace-run, star, one-or-more-spaces at an anchor position:
on success returns the captured whitespace run and the text after the
consumed spaces. -/
def tryListMatch (s : Str) : Option (Str × Str) :=
  let ws := s.takeWhile isPySpace
  match s.dropWhile isPySpace with
  | c :: r1 =>
    if c = '*' then
      let sp := r1.takeWhile (fun d => d = ' ')
      if sp.isEmpty then none
      else some (ws, r1.dropWhile (fun d => d = ' '))
    else none
  | [] => none

theorem tryListMatch_len (s ws rest : Str) (h : tryListMatch s = some (ws, rest)) :
    rest.length + 2 ≤ s.length ∧ ws = s.takeWhile isPySpace := by
  unfold tryListMatch at h
  cases hdw : s.dropWhile isPySpace with
  | nil => rw [hdw] at h; simp at h
  | cons c r1 =>
    rw [hdw] at h
    simp only at h
    split at h
    · split at h
      · simp at h
      · rename_i hsp
        simp at h
        obtain ⟨h1, h2⟩ := h
        have hlen1 : (s.takeWhile isPySpace).length + (c :: r1).length = s.length := by
          rw [← hdw, ← List.length_append, List.takeWhile_append_dropWhile]
        have hlen2 : (r1.takeWhile (fun d => d = ' ')).length +
            (r1.dropWhile (fun d => d = ' ')).length = r1.length := by
          rw [← List.length_append, List.takeWhile_append_dropWhile]
        have hspne : (r1.takeWhile (fun d => d = ' ')).length ≠ 0 := by
          intro h0
          exact hsp (List.isEmpty_iff.mpr (List.length_eq_zero.mp h0))
        refine ⟨?_, h1.symm⟩
        rw [← h2]
        simp at hlen1
        omega
    · simp at h

/-- The scanner for the rewrite of the multiline pattern
whitespace-run, star, spaces to the captured whitespace plus a dash:
`atAnchor` tracks whether the current position is a multiline anchor
(segment start or just after a newline).  Fuel-driven so that it is
structurally recursive; fuel above the string length never runs out. -/
def listSubF : Nat → Bool → Str → Str
  | 0, _, s => s
  | _ + 1, _, [] => []
  | fuel + 1, atAnchor, c :: cs =>
    if atAnchor then
      match tryListMatch (c :: cs) with
      | some (ws, rest) => ws ++ '-' :: ' ' :: listSubF fuel false rest
      | none => c :: listSubF fuel (c = nl) cs
    else c :: listSubF fuel (c = nl) cs

theorem listSubF_fuel (f1 : Nat) :
    ∀ (f2 : Nat) (a : Bool) (s : Str), s.length ≤ f1 → s.length ≤ f2 →
      listSubF f1 a s = listSubF f2 a s := by
  induction f1 with
  | zero =>
    intro f2 a s h1 _
    have hs : s = [] := List.length_eq_zero.mp (Nat.le_zero.mp h1)
    subst hs
    cases f2 <;> rfl
  | succ f1 ih =>
    intro f2 a s h1 h2
    cases s with
    | nil => cases f2 <;> rfl
    | cons c cs =>
      cases f2 with
      | zero => simp at h2
      | succ f2 =>
        simp only [listSubF]
        by_cases ha : a
        · simp only [if_pos ha]
          cases htm : tryListMatch (c :: cs) with
          | none =>
            simp only
            rw [ih f2 (c = nl) cs (by simp at h1; omega) (by simp at h2; omega)]
          | some p =>
            obtain ⟨ws, rest⟩ := p
            have hlen := (tryListMatch_len (c :: cs) ws rest htm).1
            simp only
            rw [ih f2 false rest (by simp at h1 hlen; omega) (by simp at h2 hlen; omega)]
        · simp only [if_neg ha]
          rw [ih f2 (c = nl) cs (by simp at h1; omega) (by simp at h2; omega)]

/-- The rewrite of the list-marker pattern over a whole segment
(the segment start is an anchor). -/
def listSub (s : Str) : Str := listSubF (s.length + 1) true s

/-- `listSub` generalized to an explicit anchor state. -/
def listSubA (a : Bool) (s : Str) : Str := listSubF (s.length + 1) a s

theorem listSub_eq_A (s : Str) : listSub s = listSubA true s := rfl

theorem listSubA_nil (a : Bool) : listSubA a [] = [] := rfl

theorem listSubA_cons_anchor (c : Char) (cs : Str) :
    listSubA true (c :: cs) =
      match tryListMatch (c :: cs) with
      | some (ws, rest) => ws ++ '-' :: ' ' :: listSubA false rest
      | none => c :: listSubA (c = nl) cs := by
  show listSubF (cs.length + 1 + 1) true (c :: cs) = _
  simp only [listSubF]
  rw [if_pos trivial]
  cases htm : tryListMatch (c :: cs) with
  | none => rfl
  | some p =>
    obtain ⟨ws, rest⟩ := p
    have hlen := (tryListMatch_len (c :: cs) ws rest htm).1
    simp only
    show ws ++ '-' :: ' ' :: listSubF (cs.length + 1) false rest =
      ws ++ '-' :: ' ' :: listSubF (rest.length + 1) false rest
    exact congrArg (fun t => ws ++ '-' :: ' ' :: t)
      (listSubF_fuel (cs.length + 1) (rest.length + 1) false rest
        (by simp at hlen; omega) (by omega))

theorem listSubA_cons_noanchor (c : Char) (cs : Str) :
    listSubA false (c :: cs) = c :: listSubA (c = nl) cs := by
  show listSubF (cs.length + 1 + 1) false (c :: cs) = _
  simp only [listSubF]
  rw [if_neg (by simp)]
  rfl

/-- The lazy search for the closing pair of a double-emphasis pattern
(two `c`s, lazy non-empty dot content, two `c`s): the shortest non-empty
newline-free content followed by two `c`s.  Returns (content, text after
the closing pair). -/
def findEmphClose (c : Char) : Str → Option (Str × Str)
  | [] => none
  | x :: xs =>
    if x = nl then none
    else
      match xs with
      | y :: z :: rest =>
        if y = c ∧ z = c then some ([x], rest)
        else (findEmphClose c xs).map (fun p => (x :: p.1, p.2))
      | _ => (findEmphClose c xs).map (fun p => (x :: p.1, p.2))

theorem findEmphClose_eq (c : Char) :
    ∀ (s : Str) content rest, findEmphClose c s = some (content, rest) →
      s = content ++ c :: c :: rest ∧ content ≠ [] := by
  intro s
  induction s with
  | nil => intro content rest h; simp [findEmphClose] at h
  | cons x xs ih =>
    intro content rest h
    simp only [findEmphClose] at h
    split at h
    · simp at h
    · split at h
      · rename_i y z r
        split at h
        · rename_i hyz
          simp at h
          obtain ⟨h1, h2⟩ := h
          rw [← h1, ← h2, hyz.1, hyz.2]
          simp
        · cases hsp : findEmphClose c (y :: z :: r) with
          | none => rw [hsp] at h; simp at h
          | some p =>
            rw [hsp] at h
            simp at h
            obtain ⟨h1, h2⟩ := h
            obtain ⟨hr1, hr2⟩ := ih p.1 p.2 (by rw [hsp])
            refine ⟨?_, by rw [← h1]; simp⟩
            rw [← h1, ← h2, hr1]
            simp
      · rename_i hshape
        cases hxs : xs with
        | nil => rw [hxs] at h; simp [findEmphClose] at h
        | cons y ys =>
          cases hys : ys with
          | nil =>
            rw [hxs, hys] at h
            have hnone : findEmphClose c [y] = none := by
              simp [findEmphClose]
            rw [hnone] at h
            simp at h
          | cons z zs => exact (hshape y z zs (by rw [hxs, hys])).elim

theorem findEmphClose_len (c : Char) (s content rest : Str)
    (h : findEmphClose c s = some (content, rest)) : rest.length + 3 ≤ s.length := by
  obtain ⟨h1, h2⟩ := findEmphClose_eq c s content rest h
  rw [h1]
  cases content with
  | nil => exact absurd rfl h2
  | cons a as => simp

/-- The scanner for the rewrite of double emphasis (two `c`s around a
lazy non-empty content) to single emphasis; `c` is the star for bold and
the underscore for italics.  Fuel-driven structural recursion. -/
def emphSubF (c : Char) : Nat → Str → Str
  | 0, s => s
  | _ + 1, [] => []
  | _ + 1, [x] => [x]
  | fuel + 1, x :: y :: rest =>
    if x = c ∧ y = c then
      match findEmphClose c rest with
      | some (content, after) => c :: (content ++ c :: emphSubF c fuel after)
      | none => x :: emphSubF c fuel (y :: rest)
    else x :: emphSubF c fuel (y :: rest)

theorem emphSubF_fuel (c : Char) (f1 : Nat) :
    ∀ (f2 : Nat) (s : Str), s.length ≤ f1 → s.length ≤ f2 →
      emphSubF c f1 s = emphSubF c f2 s := by
  induction f1 with
  | zero =>
    intro f2 s h1 _
    have hs : s = [] := List.length_eq_zero.mp (Nat.le_zero.mp h1)
    subst hs
    cases f2 <;> rfl
  | succ f1 ih =>
    intro f2 s h1 h2
    match s with
    | [] => cases f2 <;> rfl
    | [x] =>
      cases f2 with
      | zero => simp at h2
      | succ f2 => rfl
    | x :: y :: rest =>
      cases f2 with
      | zero => simp at h2
      | succ f2 =>
        simp only [emphSubF]
        split
        · cases hfc : findEmphClose c rest with
          | none =>
            simp only
            rw [ih f2 (y :: rest) (by simp at h1 ⊢; omega) (by simp at h2 ⊢; omega)]
          | some p =>
            obtain ⟨content, after⟩ := p
            have hlen := findEmphClose_len c rest content after hfc
            simp only
            rw [ih f2 after (by simp at h1; omega) (by simp at h2; omega)]
        · rw [ih f2 (y :: rest) (by simp at h1 ⊢; omega) (by simp at h2 ⊢; omega)]

/-- One `re.sub` pass of a double-emphasis rewrite with marker `c`. -/
def emphSub (c : Char) (s : Str) : Str := emphSubF c (s.length + 1) s

theorem emphSub_nil (c : Char) : emphSub c [] = [] := rfl

theorem emphSub_one (c : Char) (x : Char) : emphSub c [x] = [x] := rfl

theorem emphSub_cons (c x y : Char) (rest : Str) :
    emphSub c (x :: y :: rest) =
      if x = c ∧ y = c then
        match findEmphClose c rest with
        | some (content, after) => c :: (content ++ c :: emphSub c after)
        | none => x :: emphSub c (y :: rest)
      else x :: emphSub c (y :: rest) := by
  show emphSubF c (rest.length + 1 + 1 + 1) (x :: y :: rest) = _
  simp only [emphSubF]
  split
  · cases hfc : findEmphClose c rest with
    | none =>
      simp only
      show x :: emphSubF c (rest.length + 1 + 1) (y :: rest) =
        x :: emphSubF c ((y :: rest).length + 1) (y :: rest)
      rw [emphSubF_fuel c (rest.length + 1 + 1) ((y :: rest).length + 1) (y :: rest)
        (by simp) (by simp)]
    | some p =>
      obtain ⟨content, after⟩ := p
      have hlen := findEmphClose_len c rest content after hfc
      simp only
      show c :: (content ++ c :: emphSubF c (rest.length + 1 + 1) after) =
        c :: (content ++ c :: emphSubF c (after.length + 1) after)
      rw [emphSubF_fuel c (rest.length + 1 + 1) (after.length + 1) after
        (by omega) (by omega)]
  · show x :: emphSubF c (rest.length + 1 + 1) (y :: rest) =
      x :: emphSubF c ((y :: rest).length + 1) (y :: rest)
    rw [emphSubF_fuel c (rest.length + 1 + 1) ((y :: rest).length + 1) (y :: rest)
      (by simp) (by simp)]

/-- `_normalize_segment`: list-marker rewrite, then double-star bold to
single star, then double underscore to single underscore. -/
def normSeg (s : Str) : Str := emphSub '_' (emphSub '*' (listSub s))

/-- Fuel-driven body of `_normalize_markdown_for_telegram`: walk the
code-snippet matches left to right, normalizing the gaps and copying the
matches verbatim. -/
def normalizeF : Nat → Str → Str
  | 0, s => s
  | fuel + 1, s =>
    match findCodeMatch s with
    | none => normSeg s
    | some (pre, m, rest) =>
      (if pre.isEmpty then [] else normSeg pre) ++ (m ++ normalizeF fuel rest)

theorem normalizeF_fuel (f1 : Nat) :
    ∀ (f2 : Nat) (s : Str), s.length < f1 → s.length < f2 →
      normalizeF f1 s = normalizeF f2 s := by
  induction f1 with
  | zero => intro f2 s h1 _; omega
  | succ f1 ih =>
    intro f2 s h1 h2
    cases f2 with
    | zero => omega
    | succ f2 =>
      simp only [normalizeF]
      cases hfc : findCodeMatch s with
      | none => rfl
      | some t =>
        obtain ⟨pre, m, rest⟩ := t
        have hlen := findCodeMatch_len s pre m rest hfc
        simp only
        rw [ih f2 rest (by omega) (by omega)]

/-- `_normalize_markdown_for_telegram` (telegram_bot.py line 78). -/
def normalizeMarkdownForTelegram (s : Str) : Str := normalizeF (s.length + 1) s

theorem normalizeMarkdownForTelegram_eq (s : Str) :
    normalizeMarkdownForTelegram s =
      match findCodeMatch s with
      | none => normSeg s
      | some (pre, m, rest) =>
        (if pre.isEmpty then [] else normSeg pre) ++
          (m ++ normalizeMarkdownForTelegram rest) := by
  show normalizeF (s.length + 1) s = _
  simp only [normalizeF]
  cases hfc : findCodeMatch s with
  | none => rfl
  | some t =>
    obtain ⟨pre, m, rest⟩ := t
    have hlen := findCodeMatch_len s pre m rest hfc
    simp only
    rw [normalizeF_fuel s.length (rest.length + 1) rest (by omega) (by omega)]
    rfl

/-- The decomposition of a text into code spans (`true`) and the gaps
between them (`false`), following the same left-to-right scan as
`_normalize_markdown_for_telegram`; empty gaps are skipped exactly as the
Python loop skips appending empty prefixes. -/
def splitCodeF : Nat → Str → List (Bool × Str)
  | 0, _ => []
  | fuel + 1, s =>
    match findCodeMatch s with
    | none => if s.isEmpty then [] else [(false, s)]
    | some (pre, m, rest) =>
      (if pre.isEmpty then [] else [(false, pre)]) ++ (true, m) :: splitCodeF fuel rest

theorem splitCodeF_fuel (f1 : Nat) :
    ∀ (f2 : Nat) (s : Str), s.length < f1 → s.length < f2 →
      splitCodeF f1 s = splitCodeF f2 s := by
  induction f1 with
  | zero => intro f2 s h1 _; omega
  | succ f1 ih =>
    intro f2 s h1 h2
    cases f2 with
    | zero => omega
    | succ f2 =>
      simp only [splitCodeF]
      cases hfc : findCodeMatch s with
      | none => rfl
      | some t =>
        obtain ⟨pre, m, rest⟩ := t
        have hlen := findCodeMatch_len s pre m rest hfc
        simp only
        rw [ih f2 rest (by omega) (by omega)]

/-- The code-span/gap decomposition of a text. -/
def splitCode (s : Str) : List (Bool × Str) := splitCodeF (s.length + 1) s

/-- Every code-snippet match starts and ends with a backtick. -/
theorem findCodeMatch_shape (s pre m rest : Str)
    (h : findCodeMatch s = some (pre, m, rest)) :
    ∃ inner, m = tick :: (inner ++ [tick]) := by
  unfold findCodeMatch at h
  cases h1 : splitAtTick s with
  | none => rw [h1] at h; simp at h
  | some p1 =>
    rw [h1] at h
    obtain ⟨pre1, afterTick⟩ := p1
    simp only at h
    cases afterTick with
    | nil =>
      simp only [splitAtTick] at h
      simp at h
    | cons b1 bs =>
      cases bs with
      | nil =>
        simp only at h
        cases h2 : splitAtTick [b1] with
        | none => rw [h2] at h; simp at h
        | some p2 =>
          rw [h2] at h
          simp at h
          exact ⟨p2.1, h.2.1.symm⟩
      | cons b2 rest3 =>
        simp only at h
        split at h
        · cases h2 : splitAtTriple rest3 with
          | none =>
            rw [h2] at h
            simp at h
            exact ⟨[], by rw [← h.2.1]; rfl⟩
          | some p2 =>
            rw [h2] at h
            simp at h
            refine ⟨tick :: tick :: p2.1 ++ [tick, tick], ?_⟩
            rw [← h.2.1]
            simp
        · cases h2 : splitAtTick (b1 :: b2 :: rest3) with
          | none => rw [h2] at h; simp at h
          | some p2 =>
            rw [h2] at h
            simp at h
            exact ⟨p2.1, h.2.1.symm⟩

theorem splitCode_eq (s : Str) :
    splitCode s =
      match findCodeMatch s with
      | none => if s.isEmpty then [] else [(false, s)]
      | some (pre, m, rest) =>
        (if pre.isEmpty then [] else [(false, pre)]) ++ (true, m) :: splitCode rest := by
  show splitCodeF (s.length + 1) s = _
  simp only [splitCodeF]
  cases hfc : findCodeMatch s with
  | none => rfl
  | some t =>
    obtain ⟨pre, m, rest⟩ := t
    have hlen := findCodeMatch_len s pre m rest hfc
    simp only
    rw [splitCodeF_fuel s.length (rest.length + 1) rest (by omega) (by omega)]
    rfl

/-- Concatenating the pieces of the code-span decomposition restores the
text. -/
theorem splitCode_concat :
    ∀ (s : Str), ((splitCode s).map Prod.snd).foldr (· ++ ·) [] = s := by
  have H : ∀ (n : Nat) (s : Str), s.length ≤ n →
      ((splitCode s).map Prod.snd).foldr (· ++ ·) [] = s := by
    intro n
    induction n with
    | zero =>
      intro s hl
      have hs : s = [] := List.length_eq_zero.mp (Nat.le_zero.mp hl)
      subst hs
      rfl
    | succ n ihn =>
      intro s hl
      rw [splitCode_eq]
      cases hfc : findCodeMatch s with
      | none =>
        simp only
        by_cases hemp : s.isEmpty
        · rw [if_pos hemp]
          rw [List.isEmpty_iff.mp hemp]
          rfl
        · rw [if_neg hemp]
          simp
      | some t =>
        obtain ⟨pre, m, rest⟩ := t
        obtain ⟨heq, hmne⟩ := findCodeMatch_eq s pre m rest hfc
        have hlen := findCodeMatch_len s pre m rest hfc
        have hrec := ihn rest (by omega)
        simp only
        by_cases hemp : pre.isEmpty
        · rw [if_pos hemp]
          simp only [List.nil_append, List.map_cons, List.foldr_cons, hrec]
          rw [heq, List.isEmpty_iff.mp hemp]
          simp
        · rw [if_neg hemp]
          simp only [List.map_append, List.foldr_append, List.map_cons, List.foldr_cons,
            List.map_nil, hrec]
          rw [heq]
          simp
  exact fun s => H s.length s le_rfl

/-- The normalizer is exactly: rewrite the gaps of the code-span
decomposition with `_normalize_segment` and copy the code spans
verbatim. -/
theorem normalize_eq_splitCode :
    ∀ (s : Str), normalizeMarkdownForTelegram s =
      ((splitCode s).map (fun p => if p.1 then p.2 else normSeg p.2)).foldr (· ++ ·) [] := by
  have H : ∀ (n : Nat) (s : Str), s.length ≤ n →
      normalizeMarkdownForTelegram s =
        ((splitCode s).map (fun p => if p.1 then p.2 else normSeg p.2)).foldr (· ++ ·) [] := by
    intro n
    induction n with
    | zero =>
      intro s hl
      have hs : s = [] := List.length_eq_zero.mp (Nat.le_zero.mp hl)
      subst hs
      rfl
    | succ n ihn =>
      intro s hl
      rw [normalizeMarkdownForTelegram_eq, splitCode_eq]
      cases hfc : findCodeMatch s with
      | none =>
        simp only
        by_cases hemp : s.isEmpty
        · rw [if_pos hemp]
          rw [List.isEmpty_iff.mp hemp]
          rfl
        · rw [if_neg hemp]
          simp
      | some t =>
        obtain ⟨pre, m, rest⟩ := t
        have hlen := findCodeMatch_len s pre m rest hfc
        have hrec := ihn rest (by omega)
        simp only
        by_cases hemp : pre.isEmpty
        · rw [if_pos hemp, if_pos hemp]
          simp only [List.nil_append, List.map_cons, List.foldr_cons, hrec, if_pos rfl]
          simp
        · rw [if_neg hemp, if_neg hemp]
          simp only [List.map_append, List.foldr_append, List.map_cons, List.foldr_cons,
            List.map_nil, hrec]
          simp
  exact fun s => H s.length s le_rfl

/-- Every `true` piece of the decomposition is a real code span: it
begins and ends with a backtick. -/
theorem splitCode_code_shape :
    ∀ (s : Str), ∀ p ∈ splitCode s, p.1 = true → ∃ inner, p.2 = tick :: (inner ++ [tick]) := by
  have H : ∀ (n : Nat) (s : Str), s.length ≤ n →
      ∀ p ∈ splitCode s, p.1 = true → ∃ inner, p.2 = tick :: (inner ++ [tick]) := by
    intro n
    induction n with
    | zero =>
      intro s hl p hp _
      have hs : s = [] := List.length_eq_zero.mp (Nat.le_zero.mp hl)
      subst hs
      simp [splitCode, splitCodeF, findCodeMatch, splitAtTick] at hp
    | succ n ihn =>
      intro s hl p hp htrue
      rw [splitCode_eq] at hp
      cases hfc : findCodeMatch s with
      | none =>
        rw [hfc] at hp
        simp only at hp
        split at hp
        · simp at hp
        · simp at hp
          rw [hp] at htrue
          simp at htrue
      | some t =>
        obtain ⟨pre, m, rest⟩ := t
        rw [hfc] at hp
        have hlen := findCodeMatch_len s pre m rest hfc
        simp only at hp
        rcases List.mem_append.mp hp with hmem | hmem
        · split at hmem
          · simp at hmem
          · simp at hmem
            rw [hmem] at htrue
            simp at htrue
        · rcases List.mem_cons.mp hmem with hmem | hmem
          · rw [hmem]
            exact findCodeMatch_shape s pre m rest hfc
          · exact ihn rest (by omega) p hmem htrue
  exact fun s => H s.length s le_rfl

/-! ### Identity of the rewrites on star-free and underscore-free text -/

theorem tryListMatch_none_of_no_star (s : Str) (h : '*' ∉ s) :
    tryListMatch s = none := by
  unfold tryListMatch
  cases hdw : s.dropWhile isPySpace with
  | nil => rfl
  | cons c r1 =>
    have hc : ¬ c = '*' := by
      intro hc
      apply h
      rw [← hc]
      rw [← List.takeWhile_append_dropWhile (p := isPySpace) (l := s)]
      exact List.mem_append.mpr (Or.inr (by rw [hdw]; exact List.mem_cons_self _ _))
    simp only
    rw [if_neg hc]

theorem listSubA_id (s : Str) (h : '*' ∉ s) : ∀ a, listSubA a s = s := by
  induction s with
  | nil => intro a; rfl
  | cons c cs ih =>
    have htail : '*' ∉ cs := fun hm => h (List.mem_cons.mpr (Or.inr hm))
    intro a
    cases a with
    | false => rw [listSubA_cons_noanchor, ih htail]
    | true =>
      rw [listSubA_cons_anchor, tryListMatch_none_of_no_star (c :: cs) h]
      simp only
      rw [ih htail]

theorem emphSub_id (c : Char) :
    ∀ (s : Str), c ∉ s → emphSub c s = s
  | [], _ => emphSub_nil c
  | [x], _ => emphSub_one c x
  | x :: y :: rest, h => by
    rw [emphSub_cons]
    rw [if_neg (fun hc => h (by rw [← hc.1]; exact List.mem_cons_self _ _))]
    rw [emphSub_id c (y :: rest) (fun hm => h (List.mem_cons.mpr (Or.inr hm)))]

theorem normSeg_id (s : Str) (h1 : '*' ∉ s) (h2 : '_' ∉ s) : normSeg s = s := by
  unfold normSeg
  rw [listSub_eq_A, listSubA_id s h1 true, emphSub_id '*' s h1, emphSub_id '_' s h2]

theorem normalize_id (s : Str) (h1 : '*' ∉ s) (h2 : '_' ∉ s) :
    normalizeMarkdownForTelegram s = s := by
  have H : ∀ (n : Nat) (s : Str), s.length ≤ n → '*' ∉ s → '_' ∉ s →
      normalizeMarkdownForTelegram s = s := by
    intro n
    induction n with
    | zero =>
      intro s hl _ _
      have hs : s = [] := List.length_eq_zero.mp (Nat.le_zero.mp hl)
      subst hs
      rfl
    | succ n ihn =>
      intro s hl h1 h2
      rw [normalizeMarkdownForTelegram_eq]
      cases hfc : findCodeMatch s with
      | none => exact normSeg_id s h1 h2
      | some t =>
        obtain ⟨pre, m, rest⟩ := t
        obtain ⟨heq, hmne⟩ := findCodeMatch_eq s pre m rest hfc
        have hlen := findCodeMatch_len s pre m rest hfc
        have hpre1 : '*' ∉ pre := fun hm => h1 (by rw [heq]; simp [hm])
        have hpre2 : '_' ∉ pre := fun hm => h2 (by rw [heq]; simp [hm])
        have hrest1 : '*' ∉ rest := fun hm => h1 (by rw [heq]; simp [hm])
        have hrest2 : '_' ∉ rest := fun hm => h2 (by rw [heq]; simp [hm])
        simp only
        rw [ihn rest (by omega) hrest1 hrest2]
        by_cases hemp : pre.isEmpty
        · rw [if_pos hemp, heq, List.isEmpty_iff.mp hemp]
          simp
        · rw [if_neg hemp, normSeg_id pre hpre1 hpre2, heq]
          simp
  exact H s.length s le_rfl h1 h2

end BioTg

namespace BioTg

/-! ### Claim theorems about `_normalize_markdown_for_telegram` -/

/-- The counterexample input for idempotence. -/
def exC1 : Str := ("**a***b**").data

/-- C1 counterexample: on `"**a***b**"` one normalization pass yields
`"*a**b**"` but a second pass yields `"*a*b*"`: the double-star rewrite
of the first pass manufactures a fresh `**...**` site, so normalization
is not idempotent. -/
theorem c1_idempotent_counterexample :
    normalizeMarkdownForTelegram (normalizeMarkdownForTelegram exC1) ≠
      normalizeMarkdownForTelegram exC1 ∧
    normalizeMarkdownForTelegram exC1 = ("*a**b**").data ∧
    normalizeMarkdownForTelegram (normalizeMarkdownForTelegram exC1) = ("*a*b*").data := by
  refine ⟨?_, ?_, ?_⟩ <;> decide

/-- C1 (amended): normalization is not idempotent on all inputs; it is
idempotent on every input containing no star and no underscore
character (on such inputs it is the identity, code spans included). -/
theorem c1_idempotent_amended (x : Str) (h1 : '*' ∉ x) (h2 : '_' ∉ x) :
    normalizeMarkdownForTelegram (normalizeMarkdownForTelegram x) =
      normalizeMarkdownForTelegram x := by
  rw [normalize_id x h1 h2, normalize_id x h1 h2]

/-- A star-free and underscore-free input with a code span. -/
def exC1W : Str := ("hello `code` world").data

/-- C1 witness: the amended idempotence at a concrete input containing
an inline code span. -/
theorem c1_idempotent_amended_witness :
    normalizeMarkdownForTelegram (normalizeMarkdownForTelegram exC1W) =
      normalizeMarkdownForTelegram exC1W :=
  c1_idempotent_amended exC1W (by decide) (by decide)

/-- C6: the normalizer decomposes its input into code spans and gaps
(the decomposition concatenates back to the input), copies every code
span byte-for-byte (the `true` pieces, each a backtick-delimited span,
are passed through unchanged by the identity branch) and applies the
three rewrites of `_normalize_segment` only to the gaps between code
spans. -/
theorem c6_code_spans_byte_identical (x : Str) :
    ((splitCode x).map Prod.snd).foldr (· ++ ·) [] = x ∧
    normalizeMarkdownForTelegram x =
      ((splitCode x).map (fun p => if p.1 then p.2 else normSeg p.2)).foldr (· ++ ·) [] ∧
    ∀ p ∈ splitCode x, p.1 = true → ∃ inner, p.2 = tick :: (inner ++ [tick]) :=
  ⟨splitCode_concat x, normalize_eq_splitCode x, splitCode_code_shape x⟩

end BioTg

namespace BioTg

/-! ### `api_client.py`: the JSON data model and the extractors

A JSON value as Python sees it after `json.loads`: `obj` models a Python
dict (insertion-ordered key/value pairs), `arr` a list.  Numbers are
modelled as integers (the responses carry no fractional values that any
embedded function inspects). -/

inductive Json where
  | null
  | bool (b : Bool)
  | num (n : Int)
  | str (s : Str)
  | arr (xs : List Json)
  | obj (kvs : List (Str × Json))

/-- Python dict `.get`: first binding of the key, `None` when absent. -/
def lookupKV : List (Str × Json) → Str → Option Json
  | [], _ => none
  | (k, v) :: rest, key => if k = key then some v else lookupKV rest key

/-- `.get(key)` on a value that may not be a dict (non-dicts yield
`None`, matching the guarded uses in the source). -/
def jsonGet : Json → Str → Option Json
  | .obj kvs, key => lookupKV kvs key
  | _, _ => none

/-- Python truthiness of a JSON value. -/
def truthy : Json → Bool
  | .null => false
  | .bool b => b
  | .num n => n ≠ 0
  | .str s => ¬ s.isEmpty
  | .arr xs => ¬ xs.isEmpty
  | .obj kvs => ¬ kvs.isEmpty

def keyAnswer : Str := ("answer").data

def keyFindResult : Str := ("find_result").data

def keyResources : Str := ("resources").data

def keyBestMatches : Str := ("best_matches").data

def keyTitle : Str := ("title").data

def keyError : Str := ("error").data

/-- `extract_answer_text` (api_client.py lines 110-117). -/
def extract_answer_text (responseJson : Json) : Option Str :=
  match responseJson with
  | .obj _ =>
    match jsonGet responseJson keyAnswer with
    | some answerObj =>
      match answerObj with
      | .obj _ =>
        match jsonGet answerObj keyAnswer with
        | some (.str innerAnswer) =>
          if (pyStrip innerAnswer).isEmpty then none else some (pyStrip innerAnswer)
        | _ => none
      | _ => none
    | none => none
  | _ => none

/-- `id_to_title` construction: walk the resources dict in order and keep
the stripped non-empty titles of dict-shaped resources. -/
def idToTitleLoop : List (Str × Json) → List (Str × Str)
  | [] => []
  | (rid, robj) :: rest =>
    match robj with
    | .obj _ =>
      match jsonGet robj keyTitle with
      | some (.str title) =>
        if (pyStrip title).isEmpty then idToTitleLoop rest
        else (rid, pyStrip title) :: idToTitleLoop rest
      | _ => idToTitleLoop rest
    | _ => idToTitleLoop rest

def idToTitle : Json → List (Str × Str)
  | .obj kvs => idToTitleLoop kvs
  | _ => []

/-- `id_to_title.get`. -/
def lookupTitle : List (Str × Str) → Str → Option Str
  | [], _ => none
  | (k, v) :: rest, key => if k = key then some v else lookupTitle rest key

/-- `match.split("/")[0]`. -/
def takeBeforeSlash (s : Str) : Str := s.takeWhile (fun c => c ≠ '/')

/-- `if max_titles and len(titles) >= max_titles`. -/
def limitReached (maxTitles : Option Int) (n : Nat) : Bool :=
  match maxTitles with
  | none => false
  | some m => if m ≠ 0 then decide ((n : Int) ≥ m) else false

/-- The `best_matches` loop of `extract_source_titles`; the returned flag
records whether the loop returned early because the count limit was
reached (in which case the fallback loop is skipped). -/
def bestPass (idT : List (Str × Str)) (maxTitles : Option Int) :
    List Json → List Str → List Str × Bool
  | [], titles => (titles, false)
  | mEntry :: rest, titles =>
    match mEntry with
    | .str ms =>
      match lookupTitle idT (takeBeforeSlash ms) with
      | some title =>
        if ¬ title.isEmpty ∧ title ∉ titles then
          if limitReached maxTitles (titles ++ [title]).length then
            (titles ++ [title], true)
          else bestPass idT maxTitles rest (titles ++ [title])
        else bestPass idT maxTitles rest titles
      | none => bestPass idT maxTitles rest titles
    | _ => bestPass idT maxTitles rest titles

/-- The fallback loop of `extract_source_titles` over the remaining
`id_to_title` entries (a `break` when the limit is reached, then return). -/
def fallbackPass (maxTitles : Option Int) :
    List (Str × Str) → List Str → List Str
  | [], titles => titles
  | (_, title) :: rest, titles =>
    if ¬ title.isEmpty ∧ title ∉ titles then
      if limitReached maxTitles (titles ++ [title]).length then titles ++ [title]
      else fallbackPass maxTitles rest (titles ++ [title])
    else fallbackPass maxTitles rest titles

/-- The path `answer.answer` read with the generic safe accessor, as the
spec words it. -/
def answerAnswerPath (resp : Json) : Option Json :=
  match jsonGet resp keyAnswer with
  | some a => jsonGet a keyAnswer
  | none => none

/-- Modelled from the spec sentence for the answer extractor: the value
at `answer.answer` when it is a string that is non-empty after trimming,
trimmed; absent otherwise. -/
def answerSpec (resp : Json) : Option Str :=
  match answerAnswerPath resp with
  | some (.str s) => if (pyStrip s).isEmpty then none else some (pyStrip s)
  | _ => none

/-- `extract_source_titles` (api_client.py lines 131-176). -/
def extract_source_titles (responseJson : Json) (maxTitles : Option Int) : List Str :=
  match responseJson with
  | .obj _ =>
    match jsonGet responseJson keyAnswer with
    | some answerObj =>
      match answerObj with
      | .obj _ =>
        match jsonGet answerObj keyFindResult with
        | some findResult =>
          match findResult with
          | .obj _ =>
            let resources := match jsonGet findResult keyResources with
              | some r => if truthy r then r else .obj []
              | none => .obj []
            let idT := idToTitle resources
            let bestMatches := match jsonGet findResult keyBestMatches with
              | some b => if truthy b then b else .arr []
              | none => .arr []
            match bestMatches with
            | .arr ms =>
              match bestPass idT maxTitles ms [] with
              | (titles, true) => titles
              | (titles, false) => fallbackPass maxTitles idT titles
            | _ => fallbackPass maxTitles idT []
          | _ => []
        | none => []
      | _ => []
    | none => []
  | _ => []

/-- The guarded descent `response.answer.find_result` (the first three
early returns of `extract_source_titles`), as one projection. -/
def findResultOf (resp : Json) : Option Json :=
  match resp with
  | .obj _ =>
    match jsonGet resp keyAnswer with
    | some answerObj =>
      match answerObj with
      | .obj _ =>
        match jsonGet answerObj keyFindResult with
        | some fr =>
          match fr with
          | .obj _ => some fr
          | _ => none
        | none => none
      | _ => none
    | none => none
  | _ => none

/-- `find_result.get("resources") or {}` (non-dicts are later treated as
empty by `idToTitle`). -/
def resourcesOfFr (fr : Json) : Json :=
  match jsonGet fr keyResources with
  | some r => if truthy r then r else .obj []
  | none => .obj []

/-- `find_result.get("best_matches") or []`. -/
def bestMatchesOfFr (fr : Json) : Json :=
  match jsonGet fr keyBestMatches with
  | some b => if truthy b then b else .arr []
  | none => .arr []

/-- The elements of a JSON list (`isinstance(…, list)` guard: anything
else contributes no loop iterations). -/
def arrElems : Json → List Json
  | .arr xs => xs
  | _ => []

/-- The titles reachable through `best_matches`, in match order and with
multiplicity: for each string entry, the `id_to_title` entry of its
leading path segment, when present and non-empty. -/
def matchTitles (idT : List (Str × Str)) : List Json → List Str
  | [] => []
  | .str ms :: rest =>
    match lookupTitle idT (takeBeforeSlash ms) with
    | some t => if ¬ t.isEmpty then t :: matchTitles idT rest else matchTitles idT rest
    | none => matchTitles idT rest
  | _ :: rest => matchTitles idT rest

/-- The match-reachable titles of a whole response. -/
def sourceMatchTitles (resp : Json) : List Str :=
  match findResultOf resp with
  | none => []
  | some fr => matchTitles (idToTitle (resourcesOfFr fr)) (arrElems (bestMatchesOfFr fr))

/-- The eligible titles of a response: the values of the `id_to_title`
lookup, in resource iteration order. -/
def eligibleTitles (resp : Json) : List Str :=
  match findResultOf resp with
  | none => []
  | some fr => (idToTitle (resourcesOfFr fr)).map Prod.snd

/-- `extract_source_titles` restated through the projections: the
sequential early returns collapse into one optional `find_result`, and a
non-list `best_matches` behaves as an empty loop. -/
theorem extract_source_titles_eq (resp : Json) (maxT : Option Int) :
    extract_source_titles resp maxT =
      match findResultOf resp with
      | none => []
      | some fr =>
        match bestPass (idToTitle (resourcesOfFr fr)) maxT
            (arrElems (bestMatchesOfFr fr)) [] with
        | (titles, true) => titles
        | (titles, false) => fallbackPass maxT (idToTitle (resourcesOfFr fr)) titles := by
  cases resp with
  | obj kvs =>
    simp only [extract_source_titles, findResultOf, jsonGet]
    cases hga : lookupKV kvs keyAnswer with
    | none => rfl
    | some a =>
      cases a with
      | obj kvs2 =>
        simp only [jsonGet]
        cases hgf : lookupKV kvs2 keyFindResult with
        | none => rfl
        | some fr =>
          cases fr with
          | obj kvs3 =>
            simp only [resourcesOfFr, bestMatchesOfFr, jsonGet]
            cases hbm : lookupKV kvs3 keyBestMatches with
            | none => rfl
            | some b =>
              simp only
              by_cases htb : truthy b
              · rw [if_pos htb]
                cases b with
                | arr ms => rfl
                | null => rfl
                | bool bb => rfl
                | num n => rfl
                | str s => rfl
                | obj o => rfl
              · rw [if_neg htb]
                rfl
          | null => rfl
          | bool bb => rfl
          | num n => rfl
          | str s => rfl
          | arr xs => rfl
      | null => rfl
      | bool bb => rfl
      | num n => rfl
      | str s => rfl
      | arr xs => rfl
  | null => rfl
  | bool b => rfl
  | num n => rfl
  | str s => rfl
  | arr xs => rfl

theorem matchTitles_cons_str (idT : List (Str × Str)) (ms0 : Str) (rest : List Json) :
    matchTitles idT (Json.str ms0 :: rest) =
      match lookupTitle idT (takeBeforeSlash ms0) with
      | some t => if ¬ t.isEmpty then t :: matchTitles idT rest else matchTitles idT rest
      | none => matchTitles idT rest := rfl

theorem limitReached_some_pos (m : Int) (hm : 1 ≤ m) (n : Nat) :
    limitReached (some m) n = decide ((n : Int) ≥ m) := by
  show (if m ≠ 0 then decide ((n : Int) ≥ m) else false) = decide ((n : Int) ≥ m)
  rw [if_pos (by omega)]

theorem nodup_snoc (l : List Str) (t : Str) (hnd : l.Nodup) (hni : t ∉ l) :
    (l ++ [t]).Nodup := by
  simp [List.nodup_append, hnd, hni]

/-- Invariants of the `best_matches` loop: starting from a deduplicated
accumulator strictly below the limit, the loop extends the accumulator
with match-reachable titles only, stays deduplicated and within the
limit, stops early exactly at the limit, and — when it does not stop
early — ends up containing every match-reachable title. -/
theorem bestPass_props (idT : List (Str × Str)) (m : Int) (hm : 1 ≤ m) :
    ∀ (ms : List Json) (titles : List Str),
      titles.Nodup → (titles.length : Int) < m →
      ∃ B early,
        bestPass idT (some m) ms titles = (titles ++ B, early) ∧
        (titles ++ B).Nodup ∧
        ((titles ++ B).length : Int) ≤ m ∧
        (early = false → ((titles ++ B).length : Int) < m) ∧
        (∀ t ∈ B, t ∈ matchTitles idT ms) ∧
        (early = false → ∀ t ∈ matchTitles idT ms, t ∈ titles ++ B) := by
  intro ms
  induction ms with
  | nil =>
    intro titles hnd hlt
    refine ⟨[], false, by simp [bestPass], by simpa using hnd, by simpa using le_of_lt hlt,
      fun _ => by simpa using hlt, by simp, fun _ => by simp [matchTitles]⟩
  | cons mEntry rest ih =>
    intro titles hnd hlt
    cases mEntry with
    | str ms0 =>
      simp only [bestPass]
      rw [matchTitles_cons_str]
      cases hlk : lookupTitle idT (takeBeforeSlash ms0) with
      | none =>
        obtain ⟨B, early, heq, h1, h2, h3, h4, h5⟩ := ih titles hnd hlt
        exact ⟨B, early, heq, h1, h2, h3, h4, h5⟩
      | some t0 =>
        simp only
        by_cases hg : ¬ t0.isEmpty ∧ t0 ∉ titles
        · rw [if_pos hg]
          by_cases hlim : limitReached (some m) (titles ++ [t0]).length = true
          · rw [if_pos hlim]
            refine ⟨[t0], true, rfl, nodup_snoc titles t0 hnd hg.2, ?_, by simp, ?_, by simp⟩
            · simp only [List.length_append, List.length_cons, List.length_nil]
              push_cast
              omega
            · intro t ht
              simp at ht
              rw [ht, if_pos hg.1]
              exact List.mem_cons_self _ _
          · rw [if_neg hlim]
            have hlt' : ((titles ++ [t0]).length : Int) < m := by
              rw [limitReached_some_pos m hm] at hlim
              simp at hlim
              simp only [List.length_append, List.length_cons, List.length_nil]
              push_cast
              omega
            obtain ⟨B, early, heq, h1, h2, h3, h4, h5⟩ :=
              ih (titles ++ [t0]) (nodup_snoc titles t0 hnd hg.2) hlt'
            have hassoc : (titles ++ [t0]) ++ B = titles ++ t0 :: B := by simp
            refine ⟨t0 :: B, early, by rw [heq, hassoc], by rw [← hassoc]; exact h1,
              by rw [← hassoc]; exact h2, fun he => by rw [← hassoc]; exact h3 he, ?_, ?_⟩
            · intro t ht
              rw [if_pos hg.1]
              rcases List.mem_cons.mp ht with h | h
              · rw [h]; exact List.mem_cons_self _ _
              · exact List.mem_cons.mpr (Or.inr (h4 t h))
            · intro he t ht
              rw [if_pos hg.1] at ht
              rw [← hassoc]
              rcases List.mem_cons.mp ht with h | h
              · rw [h]
                exact List.mem_append.mpr (Or.inl (List.mem_append.mpr (Or.inr (by simp))))
              · exact h5 he t h
        · rw [if_neg hg]
          obtain ⟨B, early, heq, h1, h2, h3, h4, h5⟩ := ih titles hnd hlt
          by_cases hie : t0.isEmpty
          · have hcond : ¬ (¬ t0.isEmpty = true) := by simpa using hie
            rw [if_neg hcond]
            exact ⟨B, early, heq, h1, h2, h3, h4, h5⟩
          · have ht0in : t0 ∈ titles := by
              by_contra hni
              exact hg ⟨by simpa using hie, hni⟩
            rw [if_pos (by simpa using hie)]
            refine ⟨B, early, heq, h1, h2, h3,
              fun t ht => List.mem_cons.mpr (Or.inr (h4 t ht)), ?_⟩
            intro he t ht
            rcases List.mem_cons.mp ht with h | h
            · rw [h]
              exact List.mem_append.mpr (Or.inl ht0in)
            · exact h5 he t h
    | null =>
      obtain ⟨B, early, heq, h1, h2, h3, h4, h5⟩ := ih titles hnd hlt
      exact ⟨B, early, heq, h1, h2, h3, h4, h5⟩
    | bool b =>
      obtain ⟨B, early, heq, h1, h2, h3, h4, h5⟩ := ih titles hnd hlt
      exact ⟨B, early, heq, h1, h2, h3, h4, h5⟩
    | num n =>
      obtain ⟨B, early, heq, h1, h2, h3, h4, h5⟩ := ih titles hnd hlt
      exact ⟨B, early, heq, h1, h2, h3, h4, h5⟩
    | arr xs =>
      obtain ⟨B, early, heq, h1, h2, h3, h4, h5⟩ := ih titles hnd hlt
      exact ⟨B, early, heq, h1, h2, h3, h4, h5⟩
    | obj kvs =>
      obtain ⟨B, early, heq, h1, h2, h3, h4, h5⟩ := ih titles hnd hlt
      exact ⟨B, early, heq, h1, h2, h3, h4, h5⟩

/-- Invariants of the fallback loop: it extends a deduplicated
accumulator strictly below the limit only with new titles, staying
deduplicated and within the limit. -/
theorem fallbackPass_props (m : Int) (hm : 1 ≤ m) :
    ∀ (idT : List (Str × Str)) (titles : List Str),
      titles.Nodup → (titles.length : Int) < m →
      ∃ C,
        fallbackPass (some m) idT titles = titles ++ C ∧
        (titles ++ C).Nodup ∧
        ((titles ++ C).length : Int) ≤ m ∧
        (∀ t ∈ C, t ∉ titles) := by
  intro idT
  induction idT with
  | nil =>
    intro titles hnd hlt
    exact ⟨[], by simp [fallbackPass], by simpa using hnd, by simpa using le_of_lt hlt,
      by simp⟩
  | cons p rest ih =>
    obtain ⟨rid, title⟩ := p
    intro titles hnd hlt
    simp only [fallbackPass]
    by_cases hg : ¬ title.isEmpty ∧ title ∉ titles
    · rw [if_pos hg]
      by_cases hlim : limitReached (some m) (titles ++ [title]).length = true
      · rw [if_pos hlim]
        refine ⟨[title], rfl, nodup_snoc titles title hnd hg.2, ?_, ?_⟩
        · simp only [List.length_append, List.length_cons, List.length_nil]
          push_cast
          omega
        · intro t ht
          simp at ht
          rw [ht]
          exact hg.2
      · rw [if_neg hlim]
        have hlt' : ((titles ++ [title]).length : Int) < m := by
          rw [limitReached_some_pos m hm] at hlim
          simp at hlim
          simp only [List.length_append, List.length_cons, List.length_nil]
          push_cast
          omega
        obtain ⟨C, heq, h1, h2, h3⟩ := ih (titles ++ [title]) (nodup_snoc titles title hnd hg.2) hlt'
        have hassoc : (titles ++ [title]) ++ C = titles ++ title :: C := by simp
        refine ⟨title :: C, by rw [heq, hassoc], by rw [← hassoc]; exact h1,
          by rw [← hassoc]; exact h2, ?_⟩
        intro t ht
        rcases List.mem_cons.mp ht with h | h
        · rw [h]; exact hg.2
        · intro hmem
          exact h3 t h (List.mem_append.mpr (Or.inl hmem))
    · rw [if_neg hg]
      exact ih titles hnd hlt

/-- C4 (amended to positive maxima): for every response and every
requested maximum of at least one, the extracted source titles are
duplicate-free, number at most the requested maximum, and split as a
block of match-reachable titles followed by a block of titles not
reachable through `best_matches` (fallback-only titles). -/
theorem c4_source_titles (resp : Json) (m : Int) (hm : 1 ≤ m) :
    (extract_source_titles resp (some m)).Nodup ∧
    ((extract_source_titles resp (some m)).length : Int) ≤ m ∧
    ∃ A B, extract_source_titles resp (some m) = A ++ B ∧
      (∀ t ∈ A, t ∈ sourceMatchTitles resp) ∧
      (∀ t ∈ B, t ∉ sourceMatchTitles resp) := by
  rw [extract_source_titles_eq]
  unfold sourceMatchTitles
  cases hfr : findResultOf resp with
  | none =>
    dsimp only
    refine ⟨List.nodup_nil, by simp; omega, [], [], by simp, by simp, by simp⟩
  | some fr =>
    dsimp only
    obtain ⟨B, early, heq, h1, h2, h3, h4, h5⟩ :=
      bestPass_props (idToTitle (resourcesOfFr fr)) m hm
        (arrElems (bestMatchesOfFr fr)) [] (by simp) (by simp; omega)
    rw [heq]
    cases early with
    | true =>
      simp only
      refine ⟨by simpa using h1, by simpa using h2, [] ++ B, [], by simp, ?_, by simp⟩
      intro t ht
      simp at ht
      exact h4 t ht
    | false =>
      simp only
      obtain ⟨C, heqf, hf1, hf2, hf3⟩ :=
        fallbackPass_props m hm (idToTitle (resourcesOfFr fr)) ([] ++ B) h1 (h3 rfl)
      rw [heqf]
      refine ⟨hf1, hf2, [] ++ B, C, rfl, ?_, ?_⟩
      · intro t ht
        simp at ht
        exact h4 t ht
      · intro t ht hmem
        exact hf3 t ht (h5 rfl t hmem)

/-- The response of the spec scenario for source-title extraction. -/
def exC4 : Json :=
  Json.obj [(keyAnswer, Json.obj [(keyFindResult, Json.obj [
    (keyBestMatches, Json.arr [Json.str ("r1/p1").data]),
    (keyResources, Json.obj [
      (("r1").data, Json.obj [(keyTitle, Json.str ("Doc A").data)]),
      (("r2").data, Json.obj [(keyTitle, Json.str ("Doc B").data)])])])])]

/-- The spec scenario itself: `best_matches = ["r1/p1"]`, two resources,
`max_titles = 5` gives `["Doc A", "Doc B"]`. -/
theorem exC4_scenario :
    extract_source_titles exC4 (some 5) = [("Doc A").data, ("Doc B").data] := by
  decide

/-- C4 witness: the guarantees at the spec scenario with maximum 5. -/
theorem c4_source_titles_witness :
    (extract_source_titles exC4 (some 5)).Nodup ∧
    ((extract_source_titles exC4 (some 5)).length : Int) ≤ 5 ∧
    ∃ A B, extract_source_titles exC4 (some 5) = A ++ B ∧
      (∀ t ∈ A, t ∈ sourceMatchTitles exC4) ∧
      (∀ t ∈ B, t ∉ sourceMatchTitles exC4) :=
  c4_source_titles exC4 5 (by norm_num)

/-- C4 counterexample: with requested maximum 0 the function returns
both scenario titles, so the returned length exceeds the requested
maximum — the bound of the claim fails for a zero maximum (the Python
truthiness test disables the limit, cf. C10). -/
theorem c4_maxzero_counterexample :
    extract_source_titles exC4 (some 0) = [("Doc A").data, ("Doc B").data] ∧
    ¬ (((extract_source_titles exC4 (some 0)).length : Int) ≤ 0) := by
  constructor
  · decide
  · decide

/-- One deduplicating append of a non-empty new title. -/
def addTitle (titles : List Str) (t : Str) : List Str :=
  if ¬ t.isEmpty ∧ t ∉ titles then titles ++ [t] else titles

/-- Modelled from the claim: with the limit disabled, first the distinct
match-reachable titles in match order, then all remaining distinct
titles of the resources lookup in iteration order. -/
def allSourceTitles (resp : Json) : List Str :=
  match findResultOf resp with
  | none => []
  | some fr =>
    ((idToTitle (resourcesOfFr fr)).map Prod.snd).foldl addTitle
      ((matchTitles (idToTitle (resourcesOfFr fr)) (arrElems (bestMatchesOfFr fr))).foldl
        addTitle [])

theorem limitReached_none (n : Nat) : limitReached none n = false := rfl

theorem limitReached_zero (n : Nat) : limitReached (some 0) n = false := by
  show (if (0 : Int) ≠ 0 then decide ((n : Int) ≥ 0) else false) = false
  rw [if_neg (by omega)]

/-- With the limit disabled, the `best_matches` loop is exactly a
deduplicating fold over the match-reachable titles and never returns
early. -/
theorem bestPass_nolimit (idT : List (Str × Str)) (maxT : Option Int)
    (hml : ∀ n, limitReached maxT n = false) :
    ∀ (ms : List Json) (titles : List Str),
      bestPass idT maxT ms titles = ((matchTitles idT ms).foldl addTitle titles, false) := by
  intro ms
  induction ms with
  | nil => intro titles; rfl
  | cons mEntry rest ih =>
    intro titles
    cases mEntry with
    | str ms0 =>
      simp only [bestPass]
      rw [matchTitles_cons_str]
      cases hlk : lookupTitle idT (takeBeforeSlash ms0) with
      | none => exact ih titles
      | some t0 =>
        simp only
        by_cases hg : ¬ t0.isEmpty ∧ t0 ∉ titles
        · rw [if_pos hg, hml, if_neg (by simp), ih (titles ++ [t0]),
            if_pos (by simpa using hg.1)]
          simp only [List.foldl_cons]
          rw [show addTitle titles t0 = titles ++ [t0] from if_pos hg]
        · rw [if_neg hg]
          by_cases hie : t0.isEmpty
          · rw [if_neg (by simpa using hie)]
            exact ih titles
          · rw [if_pos (by simpa using hie)]
            rw [ih titles]
            simp only [List.foldl_cons]
            rw [show addTitle titles t0 = titles from if_neg hg]
    | null => exact ih titles
    | bool b => exact ih titles
    | num n => exact ih titles
    | arr xs => exact ih titles
    | obj kvs => exact ih titles

/-- With the limit disabled, the fallback loop is exactly a
deduplicating fold over the resource titles. -/
theorem fallbackPass_nolimit (maxT : Option Int)
    (hml : ∀ n, limitReached maxT n = false) :
    ∀ (idT : List (Str × Str)) (titles : List Str),
      fallbackPass maxT idT titles = (idT.map Prod.snd).foldl addTitle titles := by
  intro idT
  induction idT with
  | nil => intro titles; rfl
  | cons p rest ih =>
    obtain ⟨rid, title⟩ := p
    intro titles
    simp only [fallbackPass, List.map_cons, List.foldl_cons]
    by_cases hg : ¬ title.isEmpty ∧ title ∉ titles
    · rw [if_pos hg, hml, if_neg (by simp), ih (titles ++ [title]),
        show addTitle titles title = titles ++ [title] from if_pos hg]
    · rw [if_neg hg, ih titles,
        show addTitle titles title = titles from if_neg hg]

theorem mem_foldl_addTitle_init (l : List Str) :
    ∀ (init : List Str) (t : Str), t ∈ init → t ∈ l.foldl addTitle init := by
  induction l with
  | nil => intro init t ht; exact ht
  | cons x rest ih =>
    intro init t ht
    simp only [List.foldl_cons]
    refine ih (addTitle init x) t ?_
    unfold addTitle
    split
    · exact List.mem_append.mpr (Or.inl ht)
    · exact ht

theorem mem_foldl_addTitle (l : List Str) :
    ∀ (init : List Str) (t : Str), t ∈ l → ¬ t.isEmpty → t ∈ l.foldl addTitle init := by
  induction l with
  | nil => intro init t ht; simp at ht
  | cons x rest ih =>
    intro init t ht hne
    simp only [List.foldl_cons]
    rcases List.mem_cons.mp ht with h | h
    · subst h
      refine mem_foldl_addTitle_init rest (addTitle init t) t ?_
      unfold addTitle
      split
      · exact List.mem_append.mpr (Or.inr (by simp))
      · rename_i hcond
        push_neg at hcond
        exact hcond (by simpa using hne)
    · exact ih (addTitle init x) t h hne

/-- Every title stored by the `id_to_title` pass is non-empty. -/
theorem idToTitleLoop_nonempty (kvs : List (Str × Json)) :
    ∀ p ∈ idToTitleLoop kvs, ¬ p.2.isEmpty := by
  induction kvs with
  | nil => intro p hp; simp [idToTitleLoop] at hp
  | cons kv rest ih =>
    obtain ⟨rid, robj⟩ := kv
    intro p hp
    simp only [idToTitleLoop] at hp
    cases robj with
    | obj kvs2 =>
      revert hp
      cases hgt : jsonGet (Json.obj kvs2) keyTitle with
      | none => exact fun hp => ih p hp
      | some tv =>
        cases tv with
        | str title =>
          simp only
          by_cases hie : (pyStrip title).isEmpty
          · rw [if_pos hie]
            exact fun hp => ih p hp
          · rw [if_neg hie]
            intro hp
            rcases List.mem_cons.mp hp with h | h
            · rw [h]
              simpa using hie
            · exact ih p h
        | null => exact fun hp => ih p hp
        | bool b => exact fun hp => ih p hp
        | num n => exact fun hp => ih p hp
        | arr xs => exact fun hp => ih p hp
        | obj o => exact fun hp => ih p hp
    | null => exact ih p hp
    | bool b => exact ih p hp
    | num n => exact ih p hp
    | str s => exact ih p hp
    | arr xs => exact ih p hp

/-- C10: a maximum of `None` or `0` disables the count limit: the
function returns exactly the deduplicated match-order titles followed by
all remaining distinct resource titles, and in particular every eligible
resource title occurs in the result. -/
theorem c10_limit_disabled (resp : Json) :
    extract_source_titles resp none = allSourceTitles resp ∧
    extract_source_titles resp (some 0) = allSourceTitles resp ∧
    ∀ t ∈ eligibleTitles resp, t ∈ extract_source_titles resp none := by
  have key : ∀ (maxT : Option Int), (∀ n, limitReached maxT n = false) →
      extract_source_titles resp maxT = allSourceTitles resp := by
    intro maxT hml
    rw [extract_source_titles_eq]
    unfold allSourceTitles
    cases hfr : findResultOf resp with
    | none => rfl
    | some fr =>
      dsimp only
      rw [bestPass_nolimit (idToTitle (resourcesOfFr fr)) maxT hml
        (arrElems (bestMatchesOfFr fr)) []]
      dsimp only
      rw [fallbackPass_nolimit maxT hml]
  refine ⟨key none (fun n => limitReached_none n), key (some 0) (fun n => limitReached_zero n), ?_⟩
  rw [key none (fun n => limitReached_none n)]
  intro t ht
  unfold eligibleTitles at ht
  unfold allSourceTitles
  cases hfr : findResultOf resp with
  | none => rw [hfr] at ht; simp at ht
  | some fr =>
    rw [hfr] at ht
    dsimp only at ht ⊢
    simp only [List.mem_map] at ht
    obtain ⟨p, hp, hpt⟩ := ht
    refine mem_foldl_addTitle _ _ t (by rw [← hpt]; exact List.mem_map_of_mem Prod.snd hp) ?_
    rw [← hpt]
    cases hres : resourcesOfFr fr with
    | obj kvs =>
      rw [hres] at hp
      exact idToTitleLoop_nonempty kvs p hp
    | null => rw [hres] at hp; simp [idToTitle] at hp
    | bool b => rw [hres] at hp; simp [idToTitle] at hp
    | num n => rw [hres] at hp; simp [idToTitle] at hp
    | str s => rw [hres] at hp; simp [idToTitle] at hp
    | arr xs => rw [hres] at hp; simp [idToTitle] at hp

/-- C5: the answer extractor agrees with the spec-level description on
every response: it returns exactly the trimmed `answer.answer` string
when that path holds a string non-empty after trimming, and absent when
the path is missing, not a string, or empty after trimming. -/
theorem c5_answer_extraction (resp : Json) :
    extract_answer_text resp = answerSpec resp := by
  cases resp with
  | obj kvs =>
    simp only [extract_answer_text, answerSpec, answerAnswerPath, jsonGet]
    cases hga : lookupKV kvs keyAnswer with
    | none => rfl
    | some a =>
      cases a with
      | obj kvs2 =>
        show (match lookupKV kvs2 keyAnswer with
          | some (.str innerAnswer) =>
            if (pyStrip innerAnswer).isEmpty then none else some (pyStrip innerAnswer)
          | _ => none) =
          (match lookupKV kvs2 keyAnswer with
          | some (.str s) => if (pyStrip s).isEmpty then none else some (pyStrip s)
          | _ => none)
        rfl
      | null => rfl
      | bool b => rfl
      | num n => rfl
      | str s => rfl
      | arr xs => rfl
  | null => rfl
  | bool b => rfl
  | num n => rfl
  | str s => rfl
  | arr xs => rfl

end BioTg

namespace BioTg

/-! ### `handle_message` (telegram_bot.py lines 133-217)

The per-chat state effect of one handled text message, as a pure
function of the stored history value, the user text and the transport
response.  `chat_data["history"]` is modelled as `Option (List Turn)`:
`none` when the key is absent or not a list (the `isinstance` check).
Python list aliasing is made explicit: the `history.append` at line 148
mutates the stored list only when one already existed; the final
assignment at line 206 stores the possibly-new list on the success path
only. -/

/-- One `{role, content}` history entry. -/
structure Turn where
  role : Str
  content : Str
deriving DecidableEq

def roleUser : Str := ("user").data

def roleAssistant : Str := ("assistant").data

/-- `_escape_markdown_v1` (telegram_bot.py lines 51-60). -/
def isMdV1Special (c : Char) : Bool :=
  c = '_' || c = '*' || c = '[' || c = ']' || c = '(' || c = ')' || c = tick

def escapeMarkdownV1 : Str → Str
  | [] => []
  | c :: cs =>
    if isMdV1Special c then '\\' :: c :: escapeMarkdownV1 cs
    else c :: escapeMarkdownV1 cs

/-- The fixed friendly failure message of the structured-error branch
(line 154; the apostrophe is spelled via its code point). -/
def friendlyFailureMsg : Str :=
  ("Sorry, I couldn").data ++ apos ::
    ("t get an answer right now. Please try again later.").data

/-- The fixed no-answer message (line 160). -/
def noAnswerMsg : Str :=
  ("Sorry, I couldn").data ++ apos ::
    ("t find an answer. Please try rephrasing your question.").data

/-- `isinstance(resp, dict) and resp.get("error")` (line 151). -/
def respHasError (resp : Json) : Bool :=
  match resp with
  | .obj _ =>
    match jsonGet resp keyError with
    | some e => truthy e
    | none => false
  | _ => false

/-- The appended sources block (lines 180-184). -/
def sourcesBlock (titles : List Str) : Str :=
  joinNl ([[], [], ("*Sources:*").data] ++
    titles.map (fun t => ("- ").data ++ escapeMarkdownV1 t))

/-- Lines 158-184: the answer text with the no-answer fallback and the
sources block when any titles were extracted. -/
def composeAnswer (resp : Json) : Str :=
  let answer0 := extract_answer_text resp
  let answer := match answer0 with
    | some a => if a.isEmpty then noAnswerMsg else a
    | none => noAnswerMsg
  let titles := extract_source_titles resp (some 5)
  if titles.isEmpty then answer else answer ++ sourcesBlock titles

def maxMessages : Nat := 20

/-- The assistant content persisted to history (line 201): the
normalized answer capped at 4000 characters. -/
def assistantContent (resp : Json) : Str :=
  (normalizeMarkdownForTelegram (composeAnswer resp)).take 4000

structure HandlerResult where
  stored : Option (List Turn)
  replies : List Str
deriving DecidableEq

/-- The state effect and emitted messages of `handle_message` (after the
empty-text guard). -/
def handleMessage (chatData : Option (List Turn)) (userText : Str) (resp : Json) :
    HandlerResult :=
  let history := match chatData with
    | some h => h
    | none => []
  let history1 := history ++ [⟨roleUser, userText⟩]
  if respHasError resp then
    { stored := match chatData with
        | some _ => some history1
        | none => none,
      replies := [friendlyFailureMsg] }
  else
    let normalized := normalizeMarkdownForTelegram (composeAnswer resp)
    let chunks := splitMessage normalized 3900
    let history2 := history1 ++ [⟨roleAssistant, normalized.take 4000⟩]
    let stored := if history2.length > maxMessages then
        history2.drop (history2.length - maxMessages)
      else history2
    { stored := some stored, replies := chunks }

/-- The stored history after a sequence of handled messages, starting
from a chat with no stored history. -/
def runConversation (turns : List (Str × Json)) : Option (List Turn) :=
  turns.foldl (fun acc t => (handleMessage acc t.1 t.2).stored) none

/-- The most recent `n` elements. -/
def takeLast {α : Type} (n : Nat) (l : List α) : List α := l.drop (l.length - n)

/-- The unbounded transcript of a sequence of successfully answered
turns: a user turn then the capped assistant turn, per message. -/
def idealHistory (turns : List (Str × Json)) : List Turn :=
  (turns.map (fun t => [(⟨roleUser, t.1⟩ : Turn), ⟨roleAssistant, assistantContent t.2⟩])).flatten

theorem takeLast_length_le {α : Type} (n : Nat) (l : List α) :
    (takeLast n l).length ≤ n := by
  unfold takeLast
  rw [List.length_drop]
  omega

theorem takeLast_of_length_le {α : Type} (n : Nat) (l : List α)
    (h : l.length ≤ n) : takeLast n l = l := by
  unfold takeLast
  rw [Nat.sub_eq_zero_of_le h, List.drop_zero]

/-- Evicting twice while text accrues is the same as evicting once at
the end: keeping the last `n` of (the last `n` of `x`, then `y`) keeps
the last `n` of `x ++ y`. -/
theorem takeLast_append_takeLast {α : Type} (n : Nat) (x y : List α) :
    takeLast n (takeLast n x ++ y) = takeLast n (x ++ y) := by
  rcases le_or_lt x.length n with hx | hx
  · rw [takeLast_of_length_le n x hx]
  · unfold takeLast
    have hlen : (x.drop (x.length - n)).length = n := by
      rw [List.length_drop]
      omega
    rw [List.length_append, List.length_append, hlen,
      List.drop_append_eq_append_drop, List.drop_append_eq_append_drop,
      List.drop_drop, hlen]
    rw [show x.length - n + (n + y.length - n) = x.length + y.length - n by omega,
      show n + y.length - n - n = x.length + y.length - n - x.length by omega]

/-- The success path of the handler evicts to exactly the most recent
`maxMessages` turns. -/
theorem handleMessage_success (cd : Option (List Turn)) (u : Str) (resp : Json)
    (he : respHasError resp = false) :
    handleMessage cd u resp =
      { stored := some (takeLast maxMessages
          ((match cd with | some h => h | none => []) ++
            [⟨roleUser, u⟩, ⟨roleAssistant, assistantContent resp⟩])),
        replies := splitMessage (normalizeMarkdownForTelegram (composeAnswer resp)) 3900 } := by
  unfold handleMessage
  rw [if_neg (by simp [he])]
  simp only
  congr 1
  have hlist : ∀ (h2 : List Turn),
      (if h2.length > maxMessages then h2.drop (h2.length - maxMessages) else h2) =
        takeLast maxMessages h2 := by
    intro h2
    by_cases hgt : h2.length > maxMessages
    · rw [if_pos hgt]
      rfl
    · rw [if_neg hgt]
      rw [takeLast_of_length_le maxMessages h2 (by omega)]
  rw [hlist]
  simp [assistantContent]

/-- Folding the handler over successfully answered turns from any
bounded starting history yields exactly the most recent `maxMessages`
turns of the accumulated transcript. -/
theorem runConversation_fold (turns : List (Str × Json))
    (h : ∀ t ∈ turns, respHasError t.2 = false) :
    ∀ (h0 : List Turn), h0.length ≤ maxMessages →
      turns.foldl (fun acc t => (handleMessage acc t.1 t.2).stored) (some h0) =
        some (takeLast maxMessages (h0 ++ idealHistory turns)) := by
  induction turns with
  | nil =>
    intro h0 hb
    simp only [List.foldl_nil, idealHistory, List.map_nil, List.flatten_nil, List.append_nil]
    rw [takeLast_of_length_le maxMessages h0 hb]
  | cons t rest ih =>
    intro h0 hb
    simp only [List.foldl_cons]
    rw [handleMessage_success (some h0) t.1 t.2 (h t (List.mem_cons_self _ _))]
    simp only
    rw [ih (fun t' ht' => h t' (List.mem_cons.mpr (Or.inr ht')))
      (takeLast maxMessages _) (takeLast_length_le _ _)]
    rw [takeLast_append_takeLast]
    have : idealHistory (t :: rest) =
        [(⟨roleUser, t.1⟩ : Turn), ⟨roleAssistant, assistantContent t.2⟩] ++ idealHistory rest := by
      simp [idealHistory]
    rw [this, ← List.append_assoc]

/-- A response with an extractable answer and no sources. -/
def exRespOk : Json :=
  Json.obj [(keyAnswer, Json.obj [(keyAnswer, Json.str ("Hello").data)])]

/-- The structured-error response of the spec scenario. -/
def exRespErr : Json :=
  Json.obj [(keyError, Json.obj [(("status").data, Json.num 500),
    (("message").data, Json.str ("boom").data)])]

/-- C7 (amended): after any non-empty sequence of successfully answered
turns, the stored history is exactly the most recent `maxMessages`
turns of the accumulated transcript, in their original relative order —
so it never exceeds 20 turns and eviction always removes the oldest
turns first.  (A turn answered with a structured error appends the user
turn without evicting, so such a turn can leave the stored history above
the maximum; see the counterexample.) -/
theorem c7_history_bound_amended (turns : List (Str × Json))
    (h : ∀ t ∈ turns, respHasError t.2 = false) (hne : turns ≠ []) :
    runConversation turns = some (takeLast maxMessages (idealHistory turns)) ∧
    (takeLast maxMessages (idealHistory turns)).length ≤ maxMessages := by
  refine ⟨?_, takeLast_length_le _ _⟩
  cases turns with
  | nil => exact absurd rfl hne
  | cons t rest =>
    unfold runConversation
    simp only [List.foldl_cons]
    rw [handleMessage_success none t.1 t.2 (h t (List.mem_cons_self _ _))]
    simp only
    rw [runConversation_fold rest (fun t' ht' => h t' (List.mem_cons.mpr (Or.inr ht')))
      (takeLast maxMessages _) (takeLast_length_le _ _)]
    rw [takeLast_append_takeLast]
    have : idealHistory (t :: rest) =
        [(⟨roleUser, t.1⟩ : Turn), ⟨roleAssistant, assistantContent t.2⟩] ++ idealHistory rest := by
      simp [idealHistory]
    rw [this]
    simp

/-- The spec scenario: 25 sequential successfully answered turns. -/
def exC7Turns : List (Str × Json) := List.replicate 25 ((("u").data : Str), exRespOk)

/-- C7 witness: the 25-turn scenario; the stored history is the most
recent 20 turns of the 50-turn transcript. -/
theorem c7_history_bound_amended_witness :
    runConversation exC7Turns = some (takeLast maxMessages (idealHistory exC7Turns)) ∧
    (takeLast maxMessages (idealHistory exC7Turns)).length ≤ maxMessages :=
  c7_history_bound_amended exC7Turns
    (by
      intro t ht
      have heq : t = ((("u").data : Str), exRespOk) := by
        simpa [exC7Turns] using ht
      rw [heq]
      decide)
    (by simp [exC7Turns])

/-- Ten successful turns (filling the history to 20 turns) followed by a
structured-error turn. -/
def c7BadTurns : List (Str × Json) :=
  List.replicate 10 ((("u").data : Str), exRespOk) ++ [((("u").data : Str), exRespErr)]

/-- C7 counterexample: a structured-error turn appends the user turn
without eviction, so after ten successful turns (history at the maximum
of 20) one failing turn leaves 21 stored turns, exceeding the maximum. -/
theorem c7_history_bound_counterexample :
    (runConversation c7BadTurns).map List.length = some 21 := by decide

/-- C8 (amended): on a structured error the handler emits exactly the
single fixed friendly-failure message (independent of any answer or
source content), appends no assistant turn, and leaves the user turn
already persisted whenever the conversation had a stored history list;
on a conversation's very first message (no stored list) nothing is
persisted at all. -/
theorem c8_structured_error (cd : Option (List Turn)) (u : Str) (resp : Json)
    (he : respHasError resp = true) :
    (handleMessage cd u resp).replies = [friendlyFailureMsg] ∧
    (∀ h0, cd = some h0 →
      (handleMessage cd u resp).stored = some (h0 ++ [⟨roleUser, u⟩])) ∧
    (cd = none → (handleMessage cd u resp).stored = none) ∧
    (∀ h0, (handleMessage cd u resp).stored = some h0 →
      ∀ t ∈ h0, t.role = roleAssistant →
        t ∈ (match cd with | some h => h | none => [])) := by
  unfold handleMessage
  rw [if_pos he]
  refine ⟨rfl, ?_, ?_, ?_⟩
  · intro h0 hcd
    subst hcd
    rfl
  · intro hcd
    subst hcd
    rfl
  · intro h0 hst t ht hrole
    cases cd with
    | none => simp at hst
    | some hPrev =>
      simp only at hst ⊢
      simp only [Option.some.injEq] at hst
      rw [← hst] at ht
      rcases List.mem_append.mp ht with hmem | hmem
      · exact hmem
      · simp at hmem
        rw [hmem] at hrole
        simp only [Turn.mk.injEq] at hrole
        exact absurd hrole (by decide)

/-- C8 witness: the scenario error response on a chat with an existing
(empty) history list. -/
theorem c8_structured_error_witness :
    (handleMessage (some []) (("hi").data) exRespErr).replies = [friendlyFailureMsg] ∧
    (∀ h0, (some ([] : List Turn)) = some h0 →
      (handleMessage (some []) (("hi").data) exRespErr).stored =
        some (h0 ++ [⟨roleUser, ("hi").data⟩])) ∧
    ((some ([] : List Turn)) = none →
      (handleMessage (some []) (("hi").data) exRespErr).stored = none) ∧
    (∀ h0, (handleMessage (some []) (("hi").data) exRespErr).stored = some h0 →
      ∀ t ∈ h0, t.role = roleAssistant →
        t ∈ (match (some ([] : List Turn)) with | some h => h | none => [])) :=
  c8_structured_error (some []) (("hi").data) exRespErr (by decide)

/-- C8 counterexample: on the very first message of a conversation
(no stored history list) a structured error leaves nothing persisted, so
the conversation history does not hold the user turn of the failed
request. -/
theorem c8_user_turn_counterexample :
    respHasError exRespErr = true ∧
    (handleMessage none (("hi").data) exRespErr).stored = none := by
  exact ⟨by decide, rfl⟩

end BioTg
